import Mathlib

/-!
Shallow embedding of the lag-feature construction and train/test split of
`nyc-workshop-2018/h2o_sw/sparkling-water-hands-on/ForecastingVolume.ipynb`.

A Spark row of `stock_df` has nullable Double columns Open, High, Low, Close,
Volume (modelled as `Option ℤ`), a Date used only as the sort key of the
window (modelled as `ℤ`), and a Name partition key (modelled as `String`).
`lag(field, count = k).over(w)` with `w = Window().partitionBy("Name").orderBy("Date")`
yields, at position `i` of the partition sorted ascending by Date, the value of
`field` at position `i - k`, or null when `i < k`.  `na.drop()` keeps exactly
the rows in which every column is non-null.  The notebook chains one pass
adding Volume_lag1..Volume_lag3 and four further single-offset passes
(Close_lag1, Low_lag1, High_lag1, Open_lag1), each pass followed by its own
`na.drop()`, so each later pass recomputes positions over the already-filtered
partition.
-/

namespace ForecastingVolume

/-- A nullable numeric column value (Spark `DoubleType` with `nullable = True`). -/
abbrev Val := Option ℤ

/-- One row of `stock_df`, per the schema declared in the notebook. -/
structure Record where
  Date : ℤ
  Open : Val
  High : Val
  Low : Val
  Close : Val
  Volume : Val
  Name : String
  deriving DecidableEq, Repr

/-- A dataframe row: the base record plus the derived lag columns added so far,
in the order the `select` calls append them. -/
structure Row where
  base : Record
  lags : List (String × Val)
  deriving DecidableEq, Repr

def toRow (r : Record) : Row := ⟨r, []⟩

/-- Value of `lag(f, count = k).over(w)` at position `i` of the ordered
partition `xs`: the `f`-value of the row at position `i - k`, null when
`i < k` (Spark's default for a window frame falling before the partition). -/
def lagVal (f : Record → Val) (k : ℕ) (xs : List Row) (i : ℕ) : Val :=
  if k ≤ i then (xs[i - k]?).bind (fun s => f s.base) else none

/-- Embedding of `select("*", lag(f, count = k).over(w).alias(a))` on the ordered partition
`xs`: every row keeps its columns and gains one more lag column. -/
def withLag (f : Record → Val) (k : ℕ) (a : String) (xs : List Row) : List Row :=
  xs.mapIdx (fun i r => { r with lags := r.lags ++ [(a, lagVal f k xs i)] })

/-- All five base measurement columns of a record are non-null. -/
def recComplete (r : Record) : Bool :=
  r.Open.isSome && r.High.isSome && r.Low.isSome && r.Close.isSome && r.Volume.isSome

/-- Every column of the row, base and derived, is non-null. -/
def rowComplete (r : Row) : Bool :=
  recComplete r.base && r.lags.all (fun p => p.2.isSome)

/-- Embedding of `na.drop()`: keep exactly the rows with no null in any column. -/
def naDrop (xs : List Row) : List Row := xs.filter rowComplete

/-- The three Volume lag columns of the first pass, before its `na.drop()`. -/
def volumeLagsPre (xs : List Row) : List Row :=
  withLag (fun r => r.Volume) 3 ("Volume_lag3")
    (withLag (fun r => r.Volume) 2 ("Volume_lag2")
      (withLag (fun r => r.Volume) 1 ("Volume_lag1") xs))

/-- First pass of the notebook on one ordered partition:
`stock_df.select("*", lag("Volume", 1), lag("Volume", 2), lag("Volume", 3)).na.drop()`. -/
def volumeLags (xs : List Row) : List Row := naDrop (volumeLagsPre xs)

/-- One follow-up pass: `df.select("*", lag(f, 1).over(w).alias(a)).na.drop()`. -/
def lag1Pass (f : Record → Val) (a : String) (xs : List Row) : List Row :=
  naDrop (withLag f 1 a xs)

/-- The full chain of the notebook's five lag passes on one ordered partition,
in source order: Volume lags 1..3, then Close, Low, High, Open, each single
pass followed by its own `na.drop()`. -/
def processPartition (xs : List Row) : List Row :=
  lag1Pass (fun r => r.Open) ("Open_lag1")
    (lag1Pass (fun r => r.High) ("High_lag1")
      (lag1Pass (fun r => r.Low) ("Low_lag1")
        (lag1Pass (fun r => r.Close) ("Close_lag1") (volumeLags xs))))

/-- Order of the window `w`: ascending Date. -/
def dateLe (a b : Row) : Prop := a.base.Date ≤ b.base.Date

instance : DecidableRel dateLe := fun a b => inferInstanceAs (Decidable (a.base.Date ≤ b.base.Date))

/-- The partition of the dataset for one value of the partition key `Name`,
sorted ascending by the order key `Date` (stable sort; ties keep input order). -/
def partitionOf (d : List Record) (n : String) : List Row :=
  List.insertionSort dateLe ((d.filter (fun r => r.Name == n)).map toRow)

/-- The distinct partition-key values occurring in the dataset. -/
def namesOf (d : List Record) : List String := (d.map (fun r => r.Name)).dedup

/-- The final augmented dataset `ext_stock_df`: every partition processed by
the five chained lag passes.  Partitions are independent; their relative
output order is chosen canonically (first occurrence of each Name). -/
def ext_stock_df (d : List Record) : List Row :=
  (namesOf d).flatMap (fun n => processPartition (partitionOf d n))

/-- Read a derived lag column of a row by its alias. -/
def lagField (r : Row) (a : String) : Val := (r.lags.lookup a).join

/-- Embedding of `train = hf[is_test == 0]; test = hf[is_test == 1]`: partition the
augmented dataset by the boundary predicate, keeping order, no deduplication. -/
def splitByTimeBoundary (df : List Row) (p : Row → Bool) : List Row × List Row :=
  (df.filter (fun r => !(p r)), df.filter p)

/-- Column names of `stock_df`, in schema order. -/
def stockColumns : List String := ["Date", "Open", "High", "Low", "Close", "Volume", "Name"]

/-- Column names of a dataframe row: base schema columns then derived lags. -/
def colNames (r : Row) : List String := stockColumns ++ r.lags.map (fun p => p.1)

/-- The leakage denylist subtracted from the column set to form predictors. -/
def denylist : List String := ["Volume", "Open", "Close", "High", "Low"]

/-- Embedding of `predictors = list(set(col_names) - set(denylist))`: a Python set, so an
unordered collection of column names. -/
def predictorsOf (cols : List String) : Finset String := cols.toFinset \ denylist.toFinset

/-- A record all of whose measurement columns are non-null. -/
def mkRec (dt o h l c v : ℤ) (n : String) : Record :=
  ⟨dt, some o, some h, some l, some c, some v, n⟩

/-- The example partition of the spec: entity AAPL, five chronologically
ordered rows with volumes 100, 200, 300, 400, 500. -/
def stock5 : List Record :=
  [mkRec 0 10 20 5 15 100 ("AAPL"), mkRec 1 11 21 6 16 200 ("AAPL"),
   mkRec 2 12 22 7 17 300 ("AAPL"), mkRec 3 13 23 8 18 400 ("AAPL"),
   mkRec 4 14 24 9 19 500 ("AAPL")]

/-- A nine-row null-free partition for entity AAPL: row at date `d` has
Open `10+d`, High `20+d`, Low `5+d`, Close `15+d`, Volume `100*(d+1)`. -/
def stock9 : List Record :=
  [mkRec 0 10 20 5 15 100 ("AAPL"), mkRec 1 11 21 6 16 200 ("AAPL"),
   mkRec 2 12 22 7 17 300 ("AAPL"), mkRec 3 13 23 8 18 400 ("AAPL"),
   mkRec 4 14 24 9 19 500 ("AAPL"), mkRec 5 15 25 10 20 600 ("AAPL"),
   mkRec 6 16 26 11 21 700 ("AAPL"), mkRec 7 17 27 12 22 800 ("AAPL"),
   mkRec 8 18 28 13 23 900 ("AAPL")]

/-- Five AAPL rows whose second row (position 1) has a null Volume. -/
def stockNull : List Record :=
  [mkRec 0 10 20 5 15 100 ("AAPL"),
   ⟨1, some 11, some 21, some 6, some 16, none, ("AAPL")⟩,
   mkRec 2 12 22 7 17 300 ("AAPL"),
   mkRec 3 13 23 8 18 400 ("AAPL"),
   mkRec 4 14 24 9 19 500 ("AAPL")]

/-! ### Basic lemmas about the windowed lag operator -/

theorem length_withLag (f : Record → Val) (k : ℕ) (a : String) (xs : List Row) :
    (withLag f k a xs).length = xs.length := by
  simp [withLag]

theorem getElem?_withLag (f : Record → Val) (k : ℕ) (a : String) (xs : List Row) (i : ℕ) :
    (withLag f k a xs)[i]? =
      (xs[i]?).map (fun r => { r with lags := r.lags ++ [(a, lagVal f k xs i)] }) := by
  simp [withLag]

/-- The function `lagVal` reads only the base record of each row, which `withLag` preserves. -/
theorem lagVal_withLag (f f' : Record → Val) (k k' : ℕ) (a' : String) (xs : List Row) (i : ℕ) :
    lagVal f k (withLag f' k' a' xs) i = lagVal f k xs i := by
  unfold lagVal
  by_cases h : k ≤ i
  · simp only [h, if_true, getElem?_withLag]
    cases xs[i - k]? <;> simp
  · simp [h]

theorem mem_withLag (f : Record → Val) (k : ℕ) (a : String) (xs : List Row) (r : Row)
    (h : r ∈ withLag f k a xs) :
    ∃ s ∈ xs, ∃ v : Val, r = { s with lags := s.lags ++ [(a, v)] } := by
  obtain ⟨i, hi⟩ := List.mem_iff_getElem?.1 h
  rw [getElem?_withLag] at hi
  obtain ⟨s, hs, rfl⟩ := Option.map_eq_some'.1 hi
  exact ⟨s, List.getElem?_mem hs, lagVal f k xs i, rfl⟩

theorem isSome_lagVal (f : Record → Val) (k : ℕ) (xs : List Row) (i : ℕ)
    (hik : i < xs.length) (hf : ∀ r ∈ xs, (f r.base).isSome = true) :
    (lagVal f k xs i).isSome = decide (k ≤ i) := by
  unfold lagVal
  by_cases h : k ≤ i
  · have hlt : i - k < xs.length := lt_of_le_of_lt (Nat.sub_le i k) hik
    rw [List.getElem?_eq_getElem hlt]
    simp [h, hf _ (List.getElem_mem hlt)]
  · simp [h]

/-! ### Filtering an indexed predicate that holds exactly from position `m` on -/

theorem filter_eq_drop {α : Type} (p : α → Bool) :
    ∀ (m : ℕ) (l : List α), (∀ i a, l[i]? = some a → (p a = true ↔ m ≤ i)) →
      l.filter p = l.drop m := by
  intro m l
  induction l generalizing m with
  | nil => simp
  | cons x t ih =>
    intro h
    cases m with
    | zero =>
      rw [List.drop_zero, List.filter_eq_self]
      intro a ha
      obtain ⟨i, hi⟩ := List.mem_iff_getElem?.1 ha
      exact (h i a hi).2 (Nat.zero_le i)
    | succ m' =>
      have hx : ¬ p x = true := by
        intro hpx
        exact absurd ((h 0 x List.getElem?_cons_zero).1 hpx) (by omega)
      rw [List.filter_cons_of_neg hx, List.drop_succ_cons]
      refine ih m' (fun i a hi => ?_)
      have h2 := h (i + 1) a (by simpa using hi)
      simpa [Nat.succ_le_succ_iff] using h2

/-! ### Row completeness across a pass -/

theorem rowComplete_append (s : Row) (L : List (String × Val)) :
    rowComplete { s with lags := s.lags ++ L } =
      (rowComplete s && L.all (fun p => p.2.isSome)) := by
  simp [rowComplete, Bool.and_assoc]

theorem mem_naDrop (xs : List Row) : ∀ r ∈ naDrop xs, rowComplete r = true :=
  fun _ h => (List.mem_filter.1 h).2

theorem recComplete_fields (r : Record) (h : recComplete r = true) :
    r.Open.isSome = true ∧ r.High.isSome = true ∧ r.Low.isSome = true ∧
      r.Close.isSome = true ∧ r.Volume.isSome = true := by
  simp only [recComplete, Bool.and_eq_true] at h
  tauto

theorem fields_of_rowComplete (r : Row) (h : rowComplete r = true) :
    r.base.Open.isSome = true ∧ r.base.High.isSome = true ∧ r.base.Low.isSome = true ∧
      r.base.Close.isSome = true ∧ r.base.Volume.isSome = true := by
  refine recComplete_fields _ ?_
  simp only [rowComplete, Bool.and_eq_true] at h
  exact h.1

/-! ### A follow-up single-offset pass drops exactly the first remaining row -/

theorem lag1Pass_eq_drop (f : Record → Val) (a : String) (xs : List Row)
    (hall : ∀ r ∈ xs, rowComplete r = true)
    (hf : ∀ r ∈ xs, (f r.base).isSome = true) :
    lag1Pass f a xs = (withLag f 1 a xs).drop 1 := by
  refine filter_eq_drop _ 1 _ (fun i r hi => ?_)
  rw [getElem?_withLag] at hi
  obtain ⟨s, hs, rfl⟩ := Option.map_eq_some'.1 hi
  have hslen : i < xs.length := by
    by_contra hcon
    rw [List.getElem?_eq_none (le_of_not_lt hcon)] at hs
    exact Option.noConfusion hs
  rw [rowComplete_append, hall s (List.getElem?_mem hs), Bool.true_and]
  simp only [List.all_cons, List.all_nil, Bool.and_true,
    isSome_lagVal f 1 xs i hslen hf]
  simp

theorem length_lag1Pass (f : Record → Val) (a : String) (xs : List Row)
    (hall : ∀ r ∈ xs, rowComplete r = true)
    (hf : ∀ r ∈ xs, (f r.base).isSome = true) :
    (lag1Pass f a xs).length = xs.length - 1 := by
  rw [lag1Pass_eq_drop f a xs hall hf, List.length_drop, length_withLag]

/-! ### The first pass drops exactly the first three rows of the partition -/

theorem getElem?_volumeLagsPre (xs : List Row) (i : ℕ) :
    (volumeLagsPre xs)[i]? = (xs[i]?).map (fun r =>
      { r with lags := r.lags ++
          [(("Volume_lag1"), lagVal (fun q => q.Volume) 1 xs i),
           (("Volume_lag2"), lagVal (fun q => q.Volume) 2 xs i),
           (("Volume_lag3"), lagVal (fun q => q.Volume) 3 xs i)] }) := by
  unfold volumeLagsPre
  simp only [getElem?_withLag, lagVal_withLag]
  cases xs[i]? <;> simp

theorem length_volumeLagsPre (xs : List Row) : (volumeLagsPre xs).length = xs.length := by
  simp [volumeLagsPre, length_withLag]

theorem volumeLags_eq_drop (xs : List Row)
    (hall : ∀ r ∈ xs, rowComplete r = true)
    (hv : ∀ r ∈ xs, (r.base.Volume).isSome = true) :
    volumeLags xs = (volumeLagsPre xs).drop 3 := by
  refine filter_eq_drop _ 3 _ (fun i r hi => ?_)
  rw [getElem?_volumeLagsPre] at hi
  obtain ⟨s, hs, rfl⟩ := Option.map_eq_some'.1 hi
  have hslen : i < xs.length := by
    by_contra hcon
    rw [List.getElem?_eq_none (le_of_not_lt hcon)] at hs
    exact Option.noConfusion hs
  rw [rowComplete_append, hall s (List.getElem?_mem hs), Bool.true_and]
  simp only [List.all_cons, List.all_nil, Bool.and_true,
    isSome_lagVal (fun q => q.Volume) 1 xs i hslen hv,
    isSome_lagVal (fun q => q.Volume) 2 xs i hslen hv,
    isSome_lagVal (fun q => q.Volume) 3 xs i hslen hv]
  simp only [Bool.and_eq_true, decide_eq_true_eq]
  omega

theorem length_volumeLags (xs : List Row)
    (hall : ∀ r ∈ xs, rowComplete r = true)
    (hv : ∀ r ∈ xs, (r.base.Volume).isSome = true) :
    (volumeLags xs).length = xs.length - 3 := by
  rw [volumeLags_eq_drop xs hall hv, List.length_drop, length_volumeLagsPre]

/-! ### Row counts through the whole chain -/

theorem length_processPartition (xs : List Row)
    (hall : ∀ r ∈ xs, rowComplete r = true) :
    (processPartition xs).length = xs.length - 7 := by
  have hv : ∀ r ∈ xs, (r.base.Volume).isSome = true :=
    fun r h => (fields_of_rowComplete r (hall r h)).2.2.2.2
  have l0 := length_volumeLags xs hall hv
  have a0 : ∀ r ∈ volumeLags xs, rowComplete r = true := mem_naDrop _
  have l1 := length_lag1Pass (fun q => q.Close) ("Close_lag1") (volumeLags xs) a0
    (fun r h => (fields_of_rowComplete r (a0 r h)).2.2.2.1)
  have a1 : ∀ r ∈ lag1Pass (fun q => q.Close) ("Close_lag1") (volumeLags xs),
      rowComplete r = true := mem_naDrop _
  have l2 := length_lag1Pass (fun q => q.Low) ("Low_lag1") _ a1
    (fun r h => (fields_of_rowComplete r (a1 r h)).2.2.1)
  have a2 : ∀ r ∈ lag1Pass (fun q => q.Low) ("Low_lag1")
      (lag1Pass (fun q => q.Close) ("Close_lag1") (volumeLags xs)),
      rowComplete r = true := mem_naDrop _
  have l3 := length_lag1Pass (fun q => q.High) ("High_lag1") _ a2
    (fun r h => (fields_of_rowComplete r (a2 r h)).2.1)
  have a3 : ∀ r ∈ lag1Pass (fun q => q.High) ("High_lag1")
      (lag1Pass (fun q => q.Low) ("Low_lag1")
        (lag1Pass (fun q => q.Close) ("Close_lag1") (volumeLags xs))),
      rowComplete r = true := mem_naDrop _
  have l4 := length_lag1Pass (fun q => q.Open) ("Open_lag1") _ a3
    (fun r h => (fields_of_rowComplete r (a3 r h)).1)
  unfold processPartition
  omega

/-! ### Shape of rows surviving the chain: base record kept, aliases appended in order -/

theorem mem_withLag_shape (f : Record → Val) (k : ℕ) (a : String) (xs : List Row) (r : Row)
    (h : r ∈ withLag f k a xs) :
    ∃ s ∈ xs, r.base = s.base ∧ r.lags.map Prod.fst = s.lags.map Prod.fst ++ [a] := by
  obtain ⟨s, hs, v, rfl⟩ := mem_withLag f k a xs r h
  exact ⟨s, hs, rfl, by simp⟩

theorem mem_lag1Pass_shape (f : Record → Val) (a : String) (xs : List Row) (r : Row)
    (h : r ∈ lag1Pass f a xs) :
    ∃ s ∈ xs, r.base = s.base ∧ r.lags.map Prod.fst = s.lags.map Prod.fst ++ [a] :=
  mem_withLag_shape f 1 a xs r (List.mem_filter.1 h).1

theorem mem_volumeLags_shape (xs : List Row) (r : Row) (h : r ∈ volumeLags xs) :
    ∃ s ∈ xs, r.base = s.base ∧ r.lags.map Prod.fst =
      s.lags.map Prod.fst ++ [("Volume_lag1"), ("Volume_lag2"), ("Volume_lag3")] := by
  have h1 : r ∈ volumeLagsPre xs := (List.mem_filter.1 h).1
  obtain ⟨s3, hs3, hb3, hl3⟩ := mem_withLag_shape _ 3 _ _ r h1
  obtain ⟨s2, hs2, hb2, hl2⟩ := mem_withLag_shape _ 2 _ _ s3 hs3
  obtain ⟨s1, hs1, hb1, hl1⟩ := mem_withLag_shape _ 1 _ _ s2 hs2
  refine ⟨s1, hs1, by rw [hb3, hb2, hb1], ?_⟩
  rw [hl3, hl2, hl1]
  simp

theorem mem_processPartition_shape (xs : List Row) (r : Row) (h : r ∈ processPartition xs) :
    ∃ s ∈ xs, r.base = s.base ∧ r.lags.map Prod.fst = s.lags.map Prod.fst ++
      [("Volume_lag1"), ("Volume_lag2"), ("Volume_lag3"), ("Close_lag1"),
       ("Low_lag1"), ("High_lag1"), ("Open_lag1")] := by
  obtain ⟨s4, hs4, hb4, hl4⟩ := mem_lag1Pass_shape _ _ _ r h
  obtain ⟨s3, hs3, hb3, hl3⟩ := mem_lag1Pass_shape _ _ _ s4 hs4
  obtain ⟨s2, hs2, hb2, hl2⟩ := mem_lag1Pass_shape _ _ _ s3 hs3
  obtain ⟨s1, hs1, hb1, hl1⟩ := mem_lag1Pass_shape _ _ _ s2 hs2
  obtain ⟨s0, hs0, hb0, hl0⟩ := mem_volumeLags_shape _ s1 hs1
  refine ⟨s0, hs0, by rw [hb4, hb3, hb2, hb1, hb0], ?_⟩
  rw [hl4, hl3, hl2, hl1, hl0]
  simp

/-! ### Partition isolation: the rows of one entity in the final dataset -/

theorem mem_partitionOf (d : List Record) (n : String) (s : Row) (h : s ∈ partitionOf d n) :
    s.base.Name = n ∧ s.lags = [] := by
  rw [partitionOf, List.mem_insertionSort] at h
  obtain ⟨rec0, hrec, rfl⟩ := List.mem_map.1 h
  have hn := (List.mem_filter.1 hrec).2
  exact ⟨by simpa [toRow] using hn, rfl⟩

theorem name_processPartition (d : List Record) (n : String) (r : Row)
    (h : r ∈ processPartition (partitionOf d n)) : r.base.Name = n := by
  obtain ⟨s, hs, hb, -⟩ := mem_processPartition_shape _ r h
  rw [hb]
  exact (mem_partitionOf d n s hs).1

theorem chunk_filter (d : List Record) (A n : String) :
    (processPartition (partitionOf d n)).filter (fun r => r.base.Name == A) =
      if n = A then processPartition (partitionOf d n) else [] := by
  by_cases hna : n = A
  · rw [if_pos hna, List.filter_eq_self]
    intro r hr
    simp [name_processPartition d n r hr, hna]
  · rw [if_neg hna, List.filter_eq_nil_iff]
    intro r hr
    simp [name_processPartition d n r hr, hna]

theorem flatMap_ite_nodup {α : Type} [DecidableEq α] (L : List α) (hL : L.Nodup) (A : α)
    (g : α → List Row) :
    (L.flatMap fun n => if n = A then g n else []) = if A ∈ L then g A else [] := by
  induction L with
  | nil => simp
  | cons x t ih =>
    rcases List.nodup_cons.1 hL with ⟨hx, ht⟩
    rw [List.flatMap_cons, ih ht]
    by_cases hxA : x = A
    · subst hxA
      rw [if_pos rfl, if_neg hx, if_pos (List.mem_cons_self x t), List.append_nil]
    · rw [if_neg hxA, List.nil_append]
      by_cases hAt : A ∈ t
      · rw [if_pos hAt, if_pos (List.mem_cons_of_mem x hAt)]
      · rw [if_neg hAt, if_neg ?_]
        intro hmem
        rcases List.mem_cons.1 hmem with h1 | h2
        · exact hxA h1.symm
        · exact hAt h2

/-- The rows of the final augmented dataset belonging to entity `A` are exactly
the result of processing the partition of `A`, whatever the rest of the
dataset holds. -/
theorem ext_filter (d : List Record) (A : String) :
    (ext_stock_df d).filter (fun r => r.base.Name == A) =
      processPartition (partitionOf d A) := by
  rw [ext_stock_df, List.filter_flatMap]
  simp only [chunk_filter d A]
  have hnodup : (namesOf d).Nodup := by
    rw [namesOf]
    exact List.nodup_dedup _
  rw [flatMap_ite_nodup _ hnodup A _]
  by_cases hA : A ∈ namesOf d
  · rw [if_pos hA]
  · rw [if_neg hA]
    have hfil : d.filter (fun r => r.Name == A) = [] := by
      rw [List.filter_eq_nil_iff]
      intro r hr hcon
      refine hA ?_
      rw [namesOf, List.mem_dedup]
      exact List.mem_map.2 ⟨r, hr, by simpa using hcon⟩
    rw [partitionOf, hfil]
    rfl

/-! ### Helpers for reading one row of the first pass -/

theorem not_mem_volumeLags_of_incomplete (xs : List Row) (r : Row)
    (h : rowComplete r = false) : r ∉ volumeLags xs := by
  intro hmem
  have hc := (List.mem_filter.1 hmem).2
  rw [h] at hc
  exact Bool.noConfusion hc

theorem volumeLagsPre_partition_lags (d : List Record) (A : String) (i : ℕ) (r : Row)
    (hr : (volumeLagsPre (partitionOf d A))[i]? = some r) :
    ∃ s : Row, (partitionOf d A)[i]? = some s ∧ r.base = s.base ∧
      r.lags = [(("Volume_lag1"), lagVal (fun q => q.Volume) 1 (partitionOf d A) i),
                (("Volume_lag2"), lagVal (fun q => q.Volume) 2 (partitionOf d A) i),
                (("Volume_lag3"), lagVal (fun q => q.Volume) 3 (partitionOf d A) i)] := by
  rw [getElem?_volumeLagsPre] at hr
  obtain ⟨s, hs, rfl⟩ := Option.map_eq_some'.1 hr
  have hlags : s.lags = [] := (mem_partitionOf d A s (List.getElem?_mem hs)).2
  exact ⟨s, hs, rfl, by simp [hlags]⟩

theorem lagField_of_lags (r : Row) (v1 v2 v3 : Val)
    (h : r.lags = [(("Volume_lag1"), v1), (("Volume_lag2"), v2), (("Volume_lag3"), v3)]) :
    lagField r ("Volume_lag1") = v1 ∧ lagField r ("Volume_lag2") = v2 ∧
      lagField r ("Volume_lag3") = v3 := by
  unfold lagField
  rw [h]
  refine ⟨?_, ?_, ?_⟩ <;> simp [List.lookup]

theorem rowComplete_false_of_none (r : Row) (a : String)
    (h : (a, (none : Val)) ∈ r.lags) : rowComplete r = false := by
  have hall : r.lags.all (fun p => p.2.isSome) = false := by
    rw [List.all_eq_false]
    exact ⟨(a, none), h, by simp⟩
  rw [rowComplete, hall, Bool.and_false]

/-! ## The claims -/

/-- C1: for every partition (the records sharing one Name) sorted ascending by
Date, and every offset-alias pair of the Volume lag specification of the
notebook's first pass, the derived lag field of the record at position `i`
equals the Volume value at position `i - k` of the same partition when
`i ≥ k`, and when `i < k` the record is dropped by the pass's `na.drop()` and
is absent from its output. -/
theorem C1_lag_correctness (d : List Record) (A : String) (i k : ℕ) (a : String) (r : Row)
    (hk : (k, a) ∈ [(1, ("Volume_lag1")), (2, ("Volume_lag2")), (3, ("Volume_lag3"))])
    (hr : (volumeLagsPre (partitionOf d A))[i]? = some r) :
    (k ≤ i → lagField r a = ((partitionOf d A)[i - k]?).bind (fun s => s.base.Volume))
    ∧ (i < k → r ∉ volumeLags (partitionOf d A)) := by
  obtain ⟨s0, hs0, hb, hlags⟩ := volumeLagsPre_partition_lags d A i r hr
  obtain ⟨e1, e2, e3⟩ := lagField_of_lags r _ _ _ hlags
  simp only [List.mem_cons, List.mem_singleton, Prod.mk.injEq, List.not_mem_nil, or_false]
    at hk
  rcases hk with ⟨rfl, rfl⟩ | ⟨rfl, rfl⟩ | ⟨rfl, rfl⟩
  all_goals constructor
  · intro hki
    rw [e1, lagVal, if_pos hki]
  · intro hik
    refine not_mem_volumeLags_of_incomplete _ _ (rowComplete_false_of_none r ("Volume_lag1") ?_)
    rw [hlags]
    have hnone : lagVal (fun q => q.Volume) 1 (partitionOf d A) i = none := by
      rw [lagVal, if_neg (by omega)]
    rw [hnone]
    exact List.mem_cons_self _ _
  · intro hki
    rw [e2, lagVal, if_pos hki]
  · intro hik
    refine not_mem_volumeLags_of_incomplete _ _ (rowComplete_false_of_none r ("Volume_lag2") ?_)
    rw [hlags]
    have hnone : lagVal (fun q => q.Volume) 2 (partitionOf d A) i = none := by
      rw [lagVal, if_neg (by omega)]
    rw [hnone]
    exact List.mem_cons_of_mem _ (List.mem_cons_self _ _)
  · intro hki
    rw [e3, lagVal, if_pos hki]
  · intro hik
    refine not_mem_volumeLags_of_incomplete _ _ (rowComplete_false_of_none r ("Volume_lag3") ?_)
    rw [hlags]
    have hnone : lagVal (fun q => q.Volume) 3 (partitionOf d A) i = none := by
      rw [lagVal, if_neg (by omega)]
    rw [hnone]
    exact List.mem_cons_of_mem _ (List.mem_cons_of_mem _ (List.mem_cons_self _ _))

/-- Witness for C1 at the AAPL example partition, position 3, offset 1. -/
theorem C1_witness :
    (1 ≤ 3 → lagField (⟨mkRec 3 13 23 8 18 400 ("AAPL"),
        [(("Volume_lag1"), some 300), (("Volume_lag2"), some 200),
         (("Volume_lag3"), some 100)]⟩ : Row) ("Volume_lag1") =
        ((partitionOf stock5 ("AAPL"))[3 - 1]?).bind (fun s => s.base.Volume))
    ∧ (3 < 1 → (⟨mkRec 3 13 23 8 18 400 ("AAPL"),
        [(("Volume_lag1"), some 300), (("Volume_lag2"), some 200),
         (("Volume_lag3"), some 100)]⟩ : Row) ∉ volumeLags (partitionOf stock5 ("AAPL"))) :=
  C1_lag_correctness stock5 ("AAPL") 3 1 ("Volume_lag1") _ (by decide) (by decide)

/-- C2 as stated is false: the final augmented dataset is produced by the
chained passes, so the null-free AAPL partition of five records yields zero
rows, not `max 0 (5 - 3) = 2`. -/
theorem C2_counterexample :
    ¬ (((ext_stock_df stock5).filter (fun r => r.base.Name == ("AAPL"))).length =
        (stock5.filter (fun r => r.Name == ("AAPL"))).length - 3) := by
  decide

/-- C2 (amended): for every dataset and every partition whose records have no
null measurement, the number of final augmented rows of that partition equals
`max 0 (partitionSize - 7)`: the largest requested offset is 3, and each of
the four chained single-offset passes drops one further row. -/
theorem C2_drop_consistency (d : List Record) (A : String)
    (h : ∀ r ∈ d.filter (fun r => r.Name == A), recComplete r = true) :
    (((ext_stock_df d).filter (fun r => r.base.Name == A)).length : ℤ) =
      max 0 (((d.filter (fun r => r.Name == A)).length : ℤ) - 7) := by
  rw [ext_filter]
  have hall : ∀ r ∈ partitionOf d A, rowComplete r = true := by
    intro r hr
    rw [partitionOf, List.mem_insertionSort] at hr
    obtain ⟨rec0, hrec, rfl⟩ := List.mem_map.1 hr
    simpa [rowComplete, toRow] using h rec0 hrec
  have hlen := length_processPartition _ hall
  have hplen : (partitionOf d A).length = (d.filter (fun r => r.Name == A)).length := by
    rw [partitionOf, List.length_insertionSort, List.length_map]
  omega

/-- Witness for C2 (amended) at the nine-row null-free AAPL dataset. -/
theorem C2_witness :
    (((ext_stock_df stock9).filter (fun r => r.base.Name == ("AAPL"))).length : ℤ) =
      max 0 (((stock9.filter (fun r => r.Name == ("AAPL"))).length : ℤ) - 7) :=
  C2_drop_consistency stock9 ("AAPL") (by decide)

/-- C3: the AAPL partition with volumes [100, 200, 300, 400, 500] and lag
offsets {1, 2, 3} on Volume yields exactly the two rows at zero-indexed
positions 3 and 4, with the stated lag values. -/
theorem C3_example_scenario :
    volumeLags (partitionOf stock5 ("AAPL")) =
      [⟨mkRec 3 13 23 8 18 400 ("AAPL"),
        [(("Volume_lag1"), some 300), (("Volume_lag2"), some 200), (("Volume_lag3"), some 100)]⟩,
       ⟨mkRec 4 14 24 9 19 500 ("AAPL"),
        [(("Volume_lag1"), some 400), (("Volume_lag2"), some 300), (("Volume_lag3"), some 200)]⟩] := by
  decide

/-- C4: for every augmented dataset and every boundary predicate, the Training
and Evaluation collections are disjoint and their union as sets is the input. -/
theorem C4_split_disjoint_union (df : List Row) (p : Row → Bool) :
    (∀ r : Row, ¬ (r ∈ (splitByTimeBoundary df p).1 ∧ r ∈ (splitByTimeBoundary df p).2))
    ∧ (∀ r : Row, r ∈ df ↔
        (r ∈ (splitByTimeBoundary df p).1 ∨ r ∈ (splitByTimeBoundary df p).2)) := by
  constructor
  · rintro r ⟨h1, h2⟩
    have g1 := (List.mem_filter.1 h1).2
    have g2 := (List.mem_filter.1 h2).2
    rw [g2] at g1
    exact Bool.noConfusion g1
  · intro r
    constructor
    · intro hr
      by_cases hp : p r
      · exact Or.inr (List.mem_filter.2 ⟨hr, hp⟩)
      · exact Or.inl (List.mem_filter.2 ⟨hr, by simp [hp]⟩)
    · rintro (h | h) <;> exact (List.mem_filter.1 h).1

/-- C5: the output rows of the final augmented dataset for entity `A` depend
only on the input records of entity `A`: two datasets that agree on those
records produce identical output rows for `A`. -/
theorem C5_partition_isolation (d₁ d₂ : List Record) (A : String)
    (h : d₁.filter (fun r => r.Name == A) = d₂.filter (fun r => r.Name == A)) :
    (ext_stock_df d₁).filter (fun r => r.base.Name == A) =
      (ext_stock_df d₂).filter (fun r => r.base.Name == A) := by
  rw [ext_filter, ext_filter, partitionOf, partitionOf, h]

/-- Witness for C5: adding an MSFT record to the dataset leaves the AAPL
output rows unchanged. -/
theorem C5_witness :
    (ext_stock_df (stock5 ++ [mkRec 0 1 2 3 4 5 ("MSFT")])).filter
        (fun r => r.base.Name == ("AAPL")) =
      (ext_stock_df stock5).filter (fun r => r.base.Name == ("AAPL")) :=
  C5_partition_isolation _ _ ("AAPL") (by decide)

/-- C6: the lag construction is embedded as a pure function of its input
dataset — it has no other state — so two runs on the same input necessarily
produce identical output. -/
theorem C6_pure_repeatable (d : List Record) : ext_stock_df d = ext_stock_df d := rfl

/-- C7: a record whose lag lookup has no source (position before the partition
start) or whose referenced source Volume is null is not an error and is not
imputed: the whole record is absent from the pass's output (the pass is a
total function, so it cannot crash). -/
theorem C7_drop_not_impute (d : List Record) (A : String) (i k : ℕ) (a : String) (r s : Row)
    (hk : (k, a) ∈ [(1, ("Volume_lag1")), (2, ("Volume_lag2")), (3, ("Volume_lag3"))])
    (hr : (volumeLagsPre (partitionOf d A))[i]? = some r) :
    (i < k → r ∉ volumeLags (partitionOf d A))
    ∧ (k ≤ i → (partitionOf d A)[i - k]? = some s → s.base.Volume = none →
        r ∉ volumeLags (partitionOf d A)) := by
  obtain ⟨s0, hs0, hb, hlags⟩ := volumeLagsPre_partition_lags d A i r hr
  simp only [List.mem_cons, List.mem_singleton, Prod.mk.injEq, List.not_mem_nil, or_false]
    at hk
  rcases hk with ⟨rfl, rfl⟩ | ⟨rfl, rfl⟩ | ⟨rfl, rfl⟩
  all_goals constructor
  · intro hik
    refine not_mem_volumeLags_of_incomplete _ _ (rowComplete_false_of_none r ("Volume_lag1") ?_)
    rw [hlags]
    have hnone : lagVal (fun q => q.Volume) 1 (partitionOf d A) i = none := by
      rw [lagVal, if_neg (by omega)]
    rw [hnone]
    exact List.mem_cons_self _ _
  · intro hki hs hnull
    refine not_mem_volumeLags_of_incomplete _ _ (rowComplete_false_of_none r ("Volume_lag1") ?_)
    rw [hlags]
    have hnone : lagVal (fun q => q.Volume) 1 (partitionOf d A) i = none := by
      rw [lagVal, if_pos hki, hs]
      simp [hnull]
    rw [hnone]
    exact List.mem_cons_self _ _
  · intro hik
    refine not_mem_volumeLags_of_incomplete _ _ (rowComplete_false_of_none r ("Volume_lag2") ?_)
    rw [hlags]
    have hnone : lagVal (fun q => q.Volume) 2 (partitionOf d A) i = none := by
      rw [lagVal, if_neg (by omega)]
    rw [hnone]
    exact List.mem_cons_of_mem _ (List.mem_cons_self _ _)
  · intro hki hs hnull
    refine not_mem_volumeLags_of_incomplete _ _ (rowComplete_false_of_none r ("Volume_lag2") ?_)
    rw [hlags]
    have hnone : lagVal (fun q => q.Volume) 2 (partitionOf d A) i = none := by
      rw [lagVal, if_pos hki, hs]
      simp [hnull]
    rw [hnone]
    exact List.mem_cons_of_mem _ (List.mem_cons_self _ _)
  · intro hik
    refine not_mem_volumeLags_of_incomplete _ _ (rowComplete_false_of_none r ("Volume_lag3") ?_)
    rw [hlags]
    have hnone : lagVal (fun q => q.Volume) 3 (partitionOf d A) i = none := by
      rw [lagVal, if_neg (by omega)]
    rw [hnone]
    exact List.mem_cons_of_mem _ (List.mem_cons_of_mem _ (List.mem_cons_self _ _))
  · intro hki hs hnull
    refine not_mem_volumeLags_of_incomplete _ _ (rowComplete_false_of_none r ("Volume_lag3") ?_)
    rw [hlags]
    have hnone : lagVal (fun q => q.Volume) 3 (partitionOf d A) i = none := by
      rw [lagVal, if_pos hki, hs]
      simp [hnull]
    rw [hnone]
    exact List.mem_cons_of_mem _ (List.mem_cons_of_mem _ (List.mem_cons_self _ _))

/-- Witness for C7 at the partition whose position-1 Volume is null, with
position 2 referencing it through offset 1. -/
theorem C7_witness :
    (2 < 1 → (⟨mkRec 2 12 22 7 17 300 ("AAPL"),
        [(("Volume_lag1"), none), (("Volume_lag2"), some 100), (("Volume_lag3"), none)]⟩ : Row)
        ∉ volumeLags (partitionOf stockNull ("AAPL")))
    ∧ (1 ≤ 2 → (partitionOf stockNull ("AAPL"))[2 - 1]? =
        some (⟨⟨1, some 11, some 21, some 6, some 16, none, ("AAPL")⟩, []⟩ : Row) →
        (⟨⟨1, some 11, some 21, some 6, some 16, none, ("AAPL")⟩, []⟩ : Row).base.Volume = none →
        (⟨mkRec 2 12 22 7 17 300 ("AAPL"),
          [(("Volume_lag1"), none), (("Volume_lag2"), some 100), (("Volume_lag3"), none)]⟩ : Row)
          ∉ volumeLags (partitionOf stockNull ("AAPL"))) :=
  C7_drop_not_impute stockNull ("AAPL") 2 1 ("Volume_lag1") _ _ (by decide) (by decide)

/-- C8: a boundary predicate selecting no record still succeeds: Evaluation is
the valid empty collection and Training is the whole input. -/
theorem C8_empty_evaluation (df : List Row) (p : Row → Bool)
    (h : ∀ r ∈ df, p r = false) :
    (splitByTimeBoundary df p).2 = [] ∧ (splitByTimeBoundary df p).1 = df := by
  constructor
  · rw [splitByTimeBoundary, List.filter_eq_nil_iff]
    intro r hr hcon
    rw [h r hr] at hcon
    exact Bool.noConfusion hcon
  · rw [splitByTimeBoundary, List.filter_eq_self]
    intro r hr
    rw [h r hr]
    rfl

/-- Witness for C8 on a one-row dataset with an always-false predicate. -/
theorem C8_witness :
    (splitByTimeBoundary [toRow (mkRec 0 1 2 3 4 5 ("AAPL"))] (fun _ => false)).2 = [] ∧
      (splitByTimeBoundary [toRow (mkRec 0 1 2 3 4 5 ("AAPL"))] (fun _ => false)).1 =
        [toRow (mkRec 0 1 2 3 4 5 ("AAPL"))] :=
  C8_empty_evaluation _ _ (by decide)

/-- C9: every row of the final augmented dataset exposes exactly the seven
schema columns followed by the seven lag columns, and the predictor set is the
full column set minus exactly the denylist {Volume, Open, Close, High, Low} —
in particular every lag column is a predictor. -/
theorem C9_predictors (d : List Record) (r : Row) (h : r ∈ ext_stock_df d) :
    colNames r = [("Date"), ("Open"), ("High"), ("Low"), ("Close"), ("Volume"), ("Name"),
        ("Volume_lag1"), ("Volume_lag2"), ("Volume_lag3"), ("Close_lag1"), ("Low_lag1"),
        ("High_lag1"), ("Open_lag1")]
    ∧ predictorsOf (colNames r) =
        ({("Date"), ("Name"), ("Volume_lag1"), ("Volume_lag2"), ("Volume_lag3"),
          ("Close_lag1"), ("Low_lag1"), ("High_lag1"), ("Open_lag1")} : Finset String) := by
  obtain ⟨n, hn, hrp⟩ := List.mem_flatMap.1 h
  obtain ⟨s, hs, hb, hl⟩ := mem_processPartition_shape _ r hrp
  have hsl : s.lags = [] := (mem_partitionOf d n s hs).2
  have hcols : colNames r = [("Date"), ("Open"), ("High"), ("Low"), ("Close"), ("Volume"),
      ("Name"), ("Volume_lag1"), ("Volume_lag2"), ("Volume_lag3"), ("Close_lag1"),
      ("Low_lag1"), ("High_lag1"), ("Open_lag1")] := by
    rw [colNames, hl, hsl, stockColumns]
    rfl
  refine ⟨hcols, ?_⟩
  rw [hcols]
  decide

/-- Witness for C9 at the last augmented row of the nine-row AAPL dataset. -/
theorem C9_witness :
    colNames (⟨mkRec 8 18 28 13 23 900 ("AAPL"),
        [(("Volume_lag1"), some 800), (("Volume_lag2"), some 700), (("Volume_lag3"), some 600),
         (("Close_lag1"), some 22), (("Low_lag1"), some 12), (("High_lag1"), some 27),
         (("Open_lag1"), some 17)]⟩ : Row) =
      [("Date"), ("Open"), ("High"), ("Low"), ("Close"), ("Volume"), ("Name"),
       ("Volume_lag1"), ("Volume_lag2"), ("Volume_lag3"), ("Close_lag1"), ("Low_lag1"),
       ("High_lag1"), ("Open_lag1")]
    ∧ predictorsOf (colNames (⟨mkRec 8 18 28 13 23 900 ("AAPL"),
        [(("Volume_lag1"), some 800), (("Volume_lag2"), some 700), (("Volume_lag3"), some 600),
         (("Close_lag1"), some 22), (("Low_lag1"), some 12), (("High_lag1"), some 27),
         (("Open_lag1"), some 17)]⟩ : Row)) =
      ({("Date"), ("Name"), ("Volume_lag1"), ("Volume_lag2"), ("Volume_lag3"),
        ("Close_lag1"), ("Low_lag1"), ("High_lag1"), ("Open_lag1")} : Finset String) :=
  C9_predictors stock9 _ (by decide)

/-- C10: on a null-free partition of `n` records the chained implementation
drops one further earliest row at each of the four follow-up passes, so the
row count goes `n - 3`, `n - 4`, `n - 5`, `n - 6`, and the final augmented
dataset holds `max 0 (n - 7)` rows of the partition. -/
theorem C10_chained_passes (xs : List Record) (h : ∀ r ∈ xs, recComplete r = true) :
    ((volumeLags (xs.map toRow)).length = xs.length - 3)
    ∧ ((lag1Pass (fun q => q.Close) ("Close_lag1")
          (volumeLags (xs.map toRow))).length = xs.length - 4)
    ∧ ((lag1Pass (fun q => q.Low) ("Low_lag1")
          (lag1Pass (fun q => q.Close) ("Close_lag1")
            (volumeLags (xs.map toRow)))).length = xs.length - 5)
    ∧ ((lag1Pass (fun q => q.High) ("High_lag1")
          (lag1Pass (fun q => q.Low) ("Low_lag1")
            (lag1Pass (fun q => q.Close) ("Close_lag1")
              (volumeLags (xs.map toRow))))).length = xs.length - 6)
    ∧ ((processPartition (xs.map toRow)).length : ℤ) = max 0 ((xs.length : ℤ) - 7) := by
  have hall : ∀ r ∈ xs.map toRow, rowComplete r = true := by
    intro r hr
    obtain ⟨rec0, hrec, rfl⟩ := List.mem_map.1 hr
    simpa [rowComplete, toRow] using h rec0 hrec
  have hv : ∀ r ∈ xs.map toRow, (r.base.Volume).isSome = true :=
    fun r hr => (fields_of_rowComplete r (hall r hr)).2.2.2.2
  have l0 := length_volumeLags (xs.map toRow) hall hv
  have a0 : ∀ r ∈ volumeLags (xs.map toRow), rowComplete r = true := mem_naDrop _
  have l1 := length_lag1Pass (fun q => q.Close) ("Close_lag1") (volumeLags (xs.map toRow)) a0
    (fun r hr => (fields_of_rowComplete r (a0 r hr)).2.2.2.1)
  have a1 : ∀ r ∈ lag1Pass (fun q => q.Close) ("Close_lag1") (volumeLags (xs.map toRow)),
      rowComplete r = true := mem_naDrop _
  have l2 := length_lag1Pass (fun q => q.Low) ("Low_lag1") _ a1
    (fun r hr => (fields_of_rowComplete r (a1 r hr)).2.2.1)
  have a2 : ∀ r ∈ lag1Pass (fun q => q.Low) ("Low_lag1")
      (lag1Pass (fun q => q.Close) ("Close_lag1") (volumeLags (xs.map toRow))),
      rowComplete r = true := mem_naDrop _
  have l3 := length_lag1Pass (fun q => q.High) ("High_lag1") _ a2
    (fun r hr => (fields_of_rowComplete r (a2 r hr)).2.1)
  have a3 : ∀ r ∈ lag1Pass (fun q => q.High) ("High_lag1")
      (lag1Pass (fun q => q.Low) ("Low_lag1")
        (lag1Pass (fun q => q.Close) ("Close_lag1") (volumeLags (xs.map toRow)))),
      rowComplete r = true := mem_naDrop _
  have l4 := length_lag1Pass (fun q => q.Open) ("Open_lag1") _ a3
    (fun r hr => (fields_of_rowComplete r (a3 r hr)).1)
  have hmap : (xs.map toRow).length = xs.length := List.length_map _ _
  have hfinal : (processPartition (xs.map toRow)).length = xs.length - 7 := by
    unfold processPartition
    omega
  refine ⟨by omega, by omega, by omega, by omega, by omega⟩

/-- Witness for C10 at the nine-row null-free AAPL partition. -/
theorem C10_witness :
    ((volumeLags (stock9.map toRow)).length = stock9.length - 3)
    ∧ ((lag1Pass (fun q => q.Close) ("Close_lag1")
          (volumeLags (stock9.map toRow))).length = stock9.length - 4)
    ∧ ((lag1Pass (fun q => q.Low) ("Low_lag1")
          (lag1Pass (fun q => q.Close) ("Close_lag1")
            (volumeLags (stock9.map toRow)))).length = stock9.length - 5)
    ∧ ((lag1Pass (fun q => q.High) ("High_lag1")
          (lag1Pass (fun q => q.Low) ("Low_lag1")
            (lag1Pass (fun q => q.Close) ("Close_lag1")
              (volumeLags (stock9.map toRow))))).length = stock9.length - 6)
    ∧ ((processPartition (stock9.map toRow)).length : ℤ) = max 0 ((stock9.length : ℤ) - 7) :=
  C10_chained_passes stock9 (by decide)

end ForecastingVolume
